import Mathlib

set_option maxHeartbeats 1000000

/-!
Verification development for the `msgp` append-style MessagePack encoder
(`msgp/write_bytes_amd64.go`).  Go byte slices are modelled as a backing
array (`data`, whose length is the slice capacity) together with the slice
length; `float`/`complex` arguments are represented by their IEEE-754 bit
patterns, which is faithful because the encoder only ever consumes
`math.Float32bits`/`math.Float64bits` of them.  Helper routines of the
repository that are not part of the given source file (the `put*` writers,
the wire-tag constants, the size constants, `AppendExtension`, and the
`ErrUnsupportedType` error) are modelled from the specification's wire
grammar and are marked as such.
-/

/-- Big-endian byte list of width `w` for the value `v` (most significant byte first). -/
def be : Nat → Nat → List Nat
  | 0, _ => []
  | w + 1, v => be w (v / 256) ++ [v % 256]

/-- Go's conversion of a signed integer to a byte (two's complement low byte). -/
def u8c (i : Int) : Nat := (i.emod 256).toNat

/-- Big-endian two's-complement bytes of width `w`, as produced by Go's
fixed-width signed-integer casts followed by a big-endian store. -/
def intBE (w : Nat) (i : Int) : List Nat := be w ((i.emod ((2 : Int) ^ (8 * w))).toNat)

/-- Modelled from the spec: wire-grammar tag constants (the `m*` constants of
the repository are not in the provided source file). -/
def mnil : Nat := 0xc0

def mfalse : Nat := 0xc2

def mtrue : Nat := 0xc3

def mfloat32 : Nat := 0xca

def mfloat64 : Nat := 0xcb

def mext8 : Nat := 0xc7

def mfixext8 : Nat := 0xd7

def mfixext16 : Nat := 0xd8

/-- Modelled from the spec: registered extension type codes (a fixed
wire-compatibility contract). -/
def Complex64Extension : Nat := 3

def Complex128Extension : Nat := 4

def TimeExtension : Nat := 5

/-- Modelled from the spec: encoded sizes of the fixed-layout values
(tag + payload). -/
def Float32Size : Nat := 5

def Float64Size : Nat := 9

def Complex64Size : Nat := 10

def Complex128Size : Nat := 18

def TimeSize : Nat := 15

/-- Modelled from the spec: `wfixint` produces the one-byte positive fixint
(the value itself, after Go's `uint8` conversion). -/
def wfixint (u : Nat) : Nat := u % 256

/-- Modelled from the spec: `wnfixint` produces the one-byte negative fixint
(`byte(i) | 0xe0`). -/
def wnfixint (i : Int) : Nat := u8c i ||| 0xe0

/-- Modelled from the spec: `putMint8` writes the int8 tag and one payload byte. -/
def putMint8 (i : Int) : List Nat := [0xd0, u8c i]

/-- Modelled from the spec: `putMint16` writes the int16 tag and 2 big-endian bytes. -/
def putMint16 (i : Int) : List Nat := 0xd1 :: intBE 2 i

/-- Modelled from the spec: `putMint32` writes the int32 tag and 4 big-endian bytes. -/
def putMint32 (i : Int) : List Nat := 0xd2 :: intBE 4 i

/-- Modelled from the spec: `putMint64` writes the int64 tag and 8 big-endian bytes. -/
def putMint64 (i : Int) : List Nat := 0xd3 :: intBE 8 i

/-- Modelled from the spec: `putMuint8` writes the uint8 tag and one payload byte. -/
def putMuint8 (u : Nat) : List Nat := [0xcc, u % 256]

/-- Modelled from the spec: `putMuint16` writes the uint16 tag and 2 big-endian bytes. -/
def putMuint16 (u : Nat) : List Nat := 0xcd :: be 2 (u % 2 ^ 16)

/-- Modelled from the spec: `putMuint32` writes the uint32 tag and 4 big-endian bytes. -/
def putMuint32 (u : Nat) : List Nat := 0xce :: be 4 (u % 2 ^ 32)

/-- Modelled from the spec: `putMuint64` writes the uint64 tag and 8 big-endian bytes. -/
def putMuint64 (u : Nat) : List Nat := 0xcf :: be 8 (u % 2 ^ 64)

/-- Modelled from the spec: `prefixu32` writes a tag byte followed by a
4-byte big-endian value. -/
def prefixu32 (u : Nat) (pre : Nat) : List Nat := pre :: be 4 (u % 2 ^ 32)

/-- Modelled from the spec: `prefixu64` writes a tag byte followed by an
8-byte big-endian value. -/
def prefixu64 (u : Nat) (pre : Nat) : List Nat := pre :: be 8 (u % 2 ^ 64)

/-- Modelled from the spec: `putMapHdr` chooses the narrowest map header
(fixmap for count ≤ 15, else 16-bit, else 32-bit count). -/
def putMapHdr (sz : Nat) : List Nat :=
  if sz ≤ 15 then [0x80 ||| sz]
  else if sz ≤ 65535 then 0xde :: be 2 sz
  else 0xdf :: be 4 (sz % 2 ^ 32)

/-- Modelled from the spec: `putArrayHdr` chooses the narrowest array header
(fixarray for count ≤ 15, else 16-bit, else 32-bit count). -/
def putArrayHdr (sz : Nat) : List Nat :=
  if sz ≤ 15 then [0x90 ||| sz]
  else if sz ≤ 65535 then 0xdc :: be 2 sz
  else 0xdd :: be 4 (sz % 2 ^ 32)

/-- Modelled from the spec: `putStrHdr` chooses the narrowest string header
(fixstr ≤ 31, 8-bit length ≤ 255, 16-bit length ≤ 65535, else 32-bit). -/
def putStrHdr (sz : Nat) : List Nat :=
  if sz ≤ 31 then [0xa0 ||| sz]
  else if sz ≤ 255 then [0xd9, sz]
  else if sz ≤ 65535 then 0xda :: be 2 sz
  else 0xdb :: be 4 (sz % 2 ^ 32)

/-- Modelled from the spec: `putBinHdr` chooses the narrowest binary header
among the forms the spec grants to binary blobs (16-bit length ≤ 65535,
else 32-bit; the 8-bit length form is strings-only per the spec). -/
def putBinHdr (sz : Nat) : List Nat :=
  if sz ≤ 65535 then 0xc5 :: be 2 sz
  else 0xc6 :: be 4 (sz % 2 ^ 32)

/-- Modelled from the spec: `putUnix` writes 8 big-endian bytes of the signed
Unix seconds followed by 4 big-endian bytes of the (int32-cast) nanoseconds. -/
def putUnix (sec : Int) (nsec : Nat) : List Nat := intBE 8 sec ++ be 4 (nsec % 2 ^ 32)

/-- Modelled from the spec: `put232` writes two big-endian 32-bit float bit
patterns (real, imaginary). -/
def put232 (rbits ibits : Nat) : List Nat := be 4 (rbits % 2 ^ 32) ++ be 4 (ibits % 2 ^ 32)

/-- Modelled from the spec: `put264` writes two big-endian 64-bit float bit
patterns (real, imaginary). -/
def put264 (rbits ibits : Nat) : List Nat := be 8 (rbits % 2 ^ 64) ++ be 8 (ibits % 2 ^ 64)

/-- A Go byte slice: `data` is the backing array from the slice's start (so
`data.length` is the capacity `cap`), `len` the slice length. -/
structure Buf where
  data : List Nat
  len : Nat
deriving DecidableEq

/-- The bytes the slice denotes: the first `len` bytes of the backing array. -/
def Buf.view (b : Buf) : List Nat := b.data.take b.len

/-- Go's `copy(dst, src)`: overwrites the first `min |dst| |src|` entries of
`dst` with those of `src`, keeping the rest of `dst`. -/
def copyList (dst src : List Nat) : List Nat :=
  src.take (min dst.length src.length) ++ dst.drop (min dst.length src.length)

/-- `ensure` from the source: guarantee `sz` extra bytes between `len(b)` and
`cap(b)`, reallocating to `2*cap + sz` on insufficient capacity, and return
the extended slice together with the insertion offset. -/
def ensure (b : Buf) (sz : Nat) : Buf × Nat :=
  let l := b.len
  let c := b.data.length
  if c - l < sz then
    let o := copyList (List.replicate (2 * c + sz) 0) (b.data.take l)
    let n := min (2 * c + sz) l
    (⟨o, n + sz⟩, n)
  else (⟨b.data, l + sz⟩, l)

/-- An in-place write of the byte list `bs` into the backing array starting at
index `i` (the slice length is unchanged). -/
def setRange (b : Buf) (i : Nat) (bs : List Nat) : Buf :=
  ⟨b.data.take i ++ bs ++ b.data.drop (i + bs.length), b.len⟩

/-- Go's built-in one-byte `append`: write in place when capacity suffices,
otherwise reallocate (the runtime's growth policy is modelled as exact fit;
the source relies only on the content, not the capacity, of the result). -/
def goAppend (b : Buf) (v : Nat) : Buf :=
  if b.len < b.data.length then
    ⟨b.data.take b.len ++ v :: b.data.drop (b.len + 1), b.len + 1⟩
  else ⟨b.data.take b.len ++ [v], b.len + 1⟩

/-- `AppendNil` from the source. -/
def AppendNil (b : Buf) : Buf := goAppend b mnil

/-- `AppendBool` from the source. -/
def AppendBool (b : Buf) (t : Bool) : Buf :=
  if t then goAppend b mtrue else goAppend b mfalse

/-- `AppendFloat64` from the source (the argument is the float's bit pattern). -/
def AppendFloat64 (b : Buf) (fbits : Nat) : Buf :=
  let en := ensure b Float64Size
  setRange en.1 en.2 (prefixu64 fbits mfloat64)

/-- `AppendFloat32` from the source (the argument is the float's bit pattern). -/
def AppendFloat32 (b : Buf) (fbits : Nat) : Buf :=
  let en := ensure b Float32Size
  setRange en.1 en.2 (prefixu32 fbits mfloat32)

/-- `AppendInt64` from the source: positive ladder fixint/int16/int32/int64,
negative ladder negative-fixint (for `i >= -31`)/int8/int16/int32/int64. -/
def AppendInt64 (b : Buf) (i : Int) : Buf :=
  if 0 ≤ i then
    if i ≤ 127 then goAppend b (wfixint i.toNat)
    else if i ≤ 32767 then
      let en := ensure b 3
      setRange en.1 en.2 (putMint16 i)
    else if i ≤ 2147483647 then
      let en := ensure b 5
      setRange en.1 en.2 (putMint32 i)
    else
      let en := ensure b 9
      setRange en.1 en.2 (putMint64 i)
  else
    if -31 ≤ i then goAppend b (wnfixint i)
    else if -128 ≤ i then
      let en := ensure b 2
      setRange en.1 en.2 (putMint8 i)
    else if -32768 ≤ i then
      let en := ensure b 3
      setRange en.1 en.2 (putMint16 i)
    else if -2147483648 ≤ i then
      let en := ensure b 5
      setRange en.1 en.2 (putMint32 i)
    else
      let en := ensure b 9
      setRange en.1 en.2 (putMint64 i)

/-- `AppendInt` from the source (`int` is 64-bit on amd64). -/
def AppendInt (b : Buf) (i : Int) : Buf := AppendInt64 b i

/-- `AppendInt8` from the source. -/
def AppendInt8 (b : Buf) (i : Int) : Buf := AppendInt64 b i

/-- `AppendInt16` from the source. -/
def AppendInt16 (b : Buf) (i : Int) : Buf := AppendInt64 b i

/-- `AppendInt32` from the source. -/
def AppendInt32 (b : Buf) (i : Int) : Buf := AppendInt64 b i

/-- `AppendUint64` from the source: ladder fixint/uint8/uint16/uint32/uint64. -/
def AppendUint64 (b : Buf) (u : Nat) : Buf :=
  if u ≤ 127 then goAppend b (wfixint u)
  else if u ≤ 255 then
    let en := ensure b 2
    setRange en.1 en.2 (putMuint8 u)
  else if u ≤ 65535 then
    let en := ensure b 3
    setRange en.1 en.2 (putMuint16 u)
  else if u ≤ 4294967295 then
    let en := ensure b 5
    setRange en.1 en.2 (putMuint32 u)
  else
    let en := ensure b 9
    setRange en.1 en.2 (putMuint64 u)

/-- `AppendUint` from the source. -/
def AppendUint (b : Buf) (u : Nat) : Buf := AppendUint64 b u

/-- `AppendUint8` from the source. -/
def AppendUint8 (b : Buf) (u : Nat) : Buf := AppendUint64 b u

/-- `AppendByte` from the source. -/
def AppendByte (b : Buf) (u : Nat) : Buf := AppendUint8 b u

/-- `AppendUint16` from the source. -/
def AppendUint16 (b : Buf) (u : Nat) : Buf := AppendUint64 b u

/-- `AppendUint32` from the source. -/
def AppendUint32 (b : Buf) (u : Nat) : Buf := AppendUint64 b u

/-- `AppendBytes` from the source: reserve `5+sz`, write the binary header at
the insertion offset, copy the payload after the header, trim to the bytes
actually used. -/
def AppendBytes (b : Buf) (bts : List Nat) : Buf :=
  let sz := bts.length
  let en := ensure b (5 + sz)
  let h := putBinHdr sz
  let o2 := setRange en.1 en.2 h
  let hdr := en.2 + h.length
  let k := min (en.1.len - hdr) sz
  ⟨(setRange o2 hdr (bts.take k)).data, hdr + k⟩

/-- `AppendString` from the source: reserve `5+sz`, write the string header at
the insertion offset, copy the payload after the header, trim to the bytes
actually used. -/
def AppendString (b : Buf) (s : List Nat) : Buf :=
  let sz := s.length
  let en := ensure b (5 + sz)
  let h := putStrHdr sz
  let o2 := setRange en.1 en.2 h
  let hdr := en.2 + h.length
  let k := min (en.1.len - hdr) sz
  ⟨(setRange o2 hdr (s.take k)).data, hdr + k⟩

/-- `AppendStringFromBytes` from the source (same body as `AppendString`). -/
def AppendStringFromBytes (b : Buf) (s : List Nat) : Buf :=
  let sz := s.length
  let en := ensure b (5 + sz)
  let h := putStrHdr sz
  let o2 := setRange en.1 en.2 h
  let hdr := en.2 + h.length
  let k := min (en.1.len - hdr) sz
  ⟨(setRange o2 hdr (s.take k)).data, hdr + k⟩

/-- `AppendMapHeader` from the source (the count argument is a `uint32`,
modelled by reducing modulo `2^32`). -/
def AppendMapHeader (b : Buf) (sz : Nat) : Buf :=
  let en := ensure b 8
  let h := putMapHdr (sz % 2 ^ 32)
  ⟨(setRange en.1 en.2 h).data, en.2 + h.length⟩

/-- `AppendArrayHeader` from the source (the final length is taken from
`len(b)` plus the header width, exactly as in the source). -/
def AppendArrayHeader (b : Buf) (sz : Nat) : Buf :=
  let en := ensure b 8
  let h := putArrayHdr (sz % 2 ^ 32)
  ⟨(setRange en.1 en.2 h).data, b.len + h.length⟩

/-- `AppendComplex64` from the source: fixext8 tag, type code, then the two
32-bit float bit patterns. -/
def AppendComplex64 (b : Buf) (rbits ibits : Nat) : Buf :=
  let en := ensure b Complex64Size
  setRange en.1 en.2 (mfixext8 :: Complex64Extension :: put232 rbits ibits)

/-- `AppendComplex128` from the source: fixext16 tag, type code, then the two
64-bit float bit patterns. -/
def AppendComplex128 (b : Buf) (rbits ibits : Nat) : Buf :=
  let en := ensure b Complex128Size
  setRange en.1 en.2 (mfixext16 :: Complex128Extension :: put264 rbits ibits)

/-- A Go `time.Time`, modelled as the instant (Unix seconds and the
nanosecond fraction) together with a zone/location tag; `Unix` and
`Nanosecond` are location-independent, as in Go. -/
structure GoTime where
  sec : Int
  nsec : Nat
  loc : Nat
deriving DecidableEq

/-- `time.Time.UTC`: same instant, location set to UTC. -/
def GoTime.utc (t : GoTime) : GoTime := { t with loc := 0 }

/-- `time.Time.Unix`. -/
def GoTime.unix (t : GoTime) : Int := t.sec

/-- `time.Time.Nanosecond`. -/
def GoTime.nanosecond (t : GoTime) : Nat := t.nsec

/-- `AppendTime` from the source: ext8 tag, length byte 12, the Time extension
type code, then the 12 payload bytes of `putUnix`. -/
def AppendTime (b : Buf) (t : GoTime) : Buf :=
  let en := ensure b TimeSize
  let t2 := t.utc
  setRange en.1 en.2 (mext8 :: 12 :: TimeExtension :: putUnix t2.unix t2.nanosecond)

/-- `AppendMapStrStr` from the source (Go map iteration order is unspecified;
the map is modelled as the list of its pairs in iteration order). -/
def AppendMapStrStr (b : Buf) (m : List (List Nat × List Nat)) : Buf :=
  let b1 := AppendMapHeader b (m.length % 2 ^ 32)
  m.foldl (fun acc kv => AppendString (AppendString acc kv.1) kv.2) b1

def emptyBuf : Buf := ⟨[], 0⟩

example : Buf.view (AppendInt64 emptyBuf (-32)) = [0xd0, 0xe0] := by decide
example : Buf.view (AppendInt64 emptyBuf (-31)) = [0xe1] := by decide
example : Buf.view (AppendInt64 emptyBuf 128) = [0xd1, 0x00, 0x80] := by decide
example : Buf.view (AppendUint64 emptyBuf 128) = [0xcc, 0x80] := by decide
example : Buf.view (AppendString emptyBuf [104, 105]) = [0xa2, 104, 105] := by decide

/-- The error universe: `ErrUnsupportedType` (modelled from the spec: it names
the failing value's concrete type) or an opaque error produced by a delegated
Marshaler/Extension implementation. -/
inductive Err where
  | unsupported (t : String)
  | external (code : Nat)
deriving DecidableEq

/-- The Extension capability (modelled from the spec): a declared type code
and a payload encoder. -/
structure ExtVal where
  code : Nat
  payload : Buf → Buf × Option Err

/-- Modelled from the spec: `AppendExtension` writes a generic extension as
header + declared type code + the payload encoder's output. -/
def AppendExtension (b : Buf) (e : ExtVal) : Buf × Option Err :=
  e.payload (goAppend (goAppend b mext8) e.code)

mutual
/-- A Go `interface{}` value (non-nil): the optional Marshaler capability, the
optional Extension capability, and the concrete shape.  A dynamic value whose
type satisfies a capability still has a concrete shape; the dispatcher's type
switch gives the capabilities precedence. -/
inductive Iface where
  | mk (marshal : Option (Buf → Buf × Option Err)) (ext : Option ExtVal) (conc : Conc)

/-- The concrete dynamic shapes distinguished by the dispatcher's type switch
and its reflection fallback. -/
inductive Conc where
  | boolV (x : Bool)
  | f32 (bits : Nat)
  | f64 (bits : Nat)
  | c64 (rbits ibits : Nat)
  | c128 (rbits ibits : Nat)
  | strV (s : List Nat)
  | bytesV (bs : List Nat)
  | i8 (x : Int)
  | i16 (x : Int)
  | i32 (x : Int)
  | i64 (x : Int)
  | intV (x : Int)
  | uintV (x : Nat)
  | u8 (x : Nat)
  | u16 (x : Nat)
  | u32 (x : Nat)
  | u64 (x : Nat)
  | timeV (t : GoTime)
  | mapStrIntf (l : List (List Nat × Option Iface))
  | mapStrStr (l : List (List Nat × List Nat))
  | sliceIntf (l : List (Option Iface))
  | seqOther (tyName : String) (l : List (Option Iface))
  | ptrV (pointee : Conc)
  | otherV (tyName : String)
end

/-- The Go type descriptor string `reflect.Type.String()` yields for a value
of the given concrete shape (used by `ErrUnsupportedType`). -/
def concTypeName : Conc → String
  | .boolV _ => "bool"
  | .f32 _ => "float32"
  | .f64 _ => "float64"
  | .c64 _ _ => "complex64"
  | .c128 _ _ => "complex128"
  | .strV _ => "string"
  | .bytesV _ => "[]byte"
  | .i8 _ => "int8"
  | .i16 _ => "int16"
  | .i32 _ => "int32"
  | .i64 _ => "int64"
  | .intV _ => "int"
  | .uintV _ => "uint"
  | .u8 _ => "uint8"
  | .u16 _ => "uint16"
  | .u32 _ => "uint32"
  | .u64 _ => "uint64"
  | .timeV _ => "time.Time"
  | .mapStrIntf _ => "map[string]interface"
  | .mapStrStr _ => "map[string]string"
  | .sliceIntf _ => "[]interface"
  | .seqOther t _ => t
  | .ptrV p => "*" ++ concTypeName p
  | .otherV t => t

mutual
/-- `AppendIntf` from the source: nil check, then the type switch (Marshaler
first, Extension second, then the built-in concrete types), then the
reflection fallback for remaining array/slice kinds, else `ErrUnsupportedType`. -/
def AppendIntf (b : Buf) : Option Iface → Buf × Option Err
  | none => (AppendNil b, none)
  | some (.mk (some m) _ _) => m b
  | some (.mk none (some e) _) => AppendExtension b e
  | some (.mk none none c) => appendConc b c
termination_by i => (sizeOf i, 1)

/-- The body of `AppendIntf`'s type switch and reflection fallback, indexed by
the concrete shape of the (capability-less) value. -/
def appendConc (b : Buf) : Conc → Buf × Option Err
  | .boolV x => (AppendBool b x, none)
  | .f32 u => (AppendFloat32 b u, none)
  | .f64 u => (AppendFloat64 b u, none)
  | .c64 r i => (AppendComplex64 b r i, none)
  | .c128 r i => (AppendComplex128 b r i, none)
  | .strV s => (AppendString b s, none)
  | .bytesV s => (AppendBytes b s, none)
  | .i8 x => (AppendInt8 b x, none)
  | .i16 x => (AppendInt16 b x, none)
  | .i32 x => (AppendInt32 b x, none)
  | .i64 x => (AppendInt64 b x, none)
  | .intV x => (AppendInt64 b x, none)
  | .uintV x => (AppendUint64 b x, none)
  | .u8 x => (AppendUint8 b x, none)
  | .u16 x => (AppendUint16 b x, none)
  | .u32 x => (AppendUint32 b x, none)
  | .u64 x => (AppendUint64 b x, none)
  | .timeV t => (AppendTime b t, none)
  | .mapStrIntf l => AppendMapStrIntf b l
  | .mapStrStr l => (AppendMapStrStr b l, none)
  | .sliceIntf l => appendIntfElems (AppendArrayHeader b l.length) l
  | .seqOther _ l => appendReflectElems (AppendArrayHeader b l.length) l
  | .ptrV p => (b, some (.unsupported ("*" ++ concTypeName p)))
  | .otherV t => (b, some (.unsupported t))
termination_by c => (sizeOf c, 0)

/-- `AppendMapStrIntf` from the source: map header, then interleaved
key/value pairs, aborting on the first error. -/
def AppendMapStrIntf (b : Buf) (m : List (List Nat × Option Iface)) : Buf × Option Err :=
  appendMapStrIntfPairs (AppendMapHeader b m.length) m
termination_by (sizeOf m, 1)

/-- The key/value loop of `AppendMapStrIntf`. -/
def appendMapStrIntfPairs (b : Buf) : List (List Nat × Option Iface) → Buf × Option Err
  | [] => (b, none)
  | (k, v) :: rest =>
    let b1 := AppendString b k
    let r := AppendIntf b1 v
    match r.2 with
    | some e => (r.1, some e)
    | none => appendMapStrIntfPairs r.1 rest
termination_by l => (sizeOf l, 0)

/-- The element loop of the `[]interface{}` case of `AppendIntf`. -/
def appendIntfElems (b : Buf) : List (Option Iface) → Buf × Option Err
  | [] => (b, none)
  | v :: rest =>
    let r := AppendIntf b v
    match r.2 with
    | some e => (r.1, some e)
    | none => appendIntfElems r.1 rest
termination_by l => (sizeOf l, 0)

/-- The element loop of the reflection fallback of `AppendIntf` (a textually
separate loop in the source). -/
def appendReflectElems (b : Buf) : List (Option Iface) → Buf × Option Err
  | [] => (b, none)
  | v :: rest =>
    let r := AppendIntf b v
    match r.2 with
    | some e => (r.1, some e)
    | none => appendReflectElems r.1 rest
termination_by l => (sizeOf l, 0)
end

mutual
/-- A dynamic value none of whose reachable parts carries a Marshaler or
Extension capability (for such values the dispatcher's behaviour is fully
determined by the concrete shapes). -/
def capFree : Option Iface → Bool
  | none => true
  | some (.mk m e c) => m.isNone && e.isNone && capFreeConc c
termination_by i => sizeOf i

def capFreeConc : Conc → Bool
  | .mapStrIntf l => capFreePairs l
  | .sliceIntf l => capFreeElems l
  | .seqOther _ l => capFreeElems l
  | _ => true
termination_by c => sizeOf c

def capFreePairs : List (List Nat × Option Iface) → Bool
  | [] => true
  | (_, v) :: rest => capFree v && capFreePairs rest
termination_by l => sizeOf l

def capFreeElems : List (Option Iface) → Bool
  | [] => true
  | v :: rest => capFree v && capFreeElems rest
termination_by l => sizeOf l
end

mutual
/-- Following the spec's description of the dispatcher's error behaviour: the
concrete type named by the first value, in dispatch/iteration order, that
matches none of the recognized shapes (`none` when every reachable value is
recognized). -/
def specFirstUnsupported : Option Iface → Option String
  | none => none
  | some (.mk _ _ c) => specFirstUnsupportedConc c
termination_by i => sizeOf i

def specFirstUnsupportedConc : Conc → Option String
  | .mapStrIntf l => specFirstUnsupportedPairs l
  | .sliceIntf l => specFirstUnsupportedElems l
  | .seqOther _ l => specFirstUnsupportedElems l
  | .ptrV p => some ("*" ++ concTypeName p)
  | .otherV t => some t
  | _ => none
termination_by c => sizeOf c

def specFirstUnsupportedPairs : List (List Nat × Option Iface) → Option String
  | [] => none
  | (_, v) :: rest =>
    match specFirstUnsupported v with
    | some t => some t
    | none => specFirstUnsupportedPairs rest
termination_by l => sizeOf l

def specFirstUnsupportedElems : List (Option Iface) → Option String
  | [] => none
  | v :: rest =>
    match specFirstUnsupported v with
    | some t => some t
    | none => specFirstUnsupportedElems rest
termination_by l => sizeOf l
end

theorem be_length (w : Nat) : ∀ v : Nat, (be w v).length = w := by
  induction w with
  | zero => intro v; rfl
  | succ w ih => intro v; simp [be, ih]

theorem intBE_length (w : Nat) (i : Int) : (intBE w i).length = w := by
  simp [intBE, be_length]

theorem putStrHdr_length_le (sz : Nat) : (putStrHdr sz).length ≤ 5 := by
  unfold putStrHdr
  split
  · simp
  · split
    · simp
    · split <;> simp [be_length]

theorem putBinHdr_length_le (sz : Nat) : (putBinHdr sz).length ≤ 5 := by
  unfold putBinHdr
  split <;> simp [be_length]

theorem putMapHdr_length_le (sz : Nat) : (putMapHdr sz).length ≤ 8 := by
  unfold putMapHdr
  split
  · simp
  · split <;> simp [be_length]

theorem putArrayHdr_length_le (sz : Nat) : (putArrayHdr sz).length ≤ 8 := by
  unfold putArrayHdr
  split
  · simp
  · split <;> simp [be_length]

theorem ensure_spec (b : Buf) (sz : Nat) (hb : b.len ≤ b.data.length) :
    (ensure b sz).2 = b.len ∧ (ensure b sz).1.len = b.len + sz ∧
    (ensure b sz).1.data.take b.len = b.data.take b.len ∧
    b.len + sz ≤ (ensure b sz).1.data.length := by
  by_cases h : b.data.length - b.len < sz
  · have htl : (b.data.take b.len).length = b.len := List.length_take_of_le hb
    have hm : min ((List.replicate (2 * b.data.length + sz) 0).length)
        ((b.data.take b.len).length) = b.len := by
      simp [htl]; omega
    simp only [ensure, copyList, h, if_true, hm]
    have htt : (b.data.take b.len).take b.len = b.data.take b.len := by
      simp [List.take_take]
    have hn : min (2 * b.data.length + sz) b.len = b.len := by omega
    refine ⟨hn, by rw [hn], ?_, ?_⟩
    · rw [htt, List.take_append_of_le_length (by rw [htl])]
      exact htt
    · simp [htt, htl]
      omega
  · simp only [ensure, h, if_false]
    simp only [and_true, true_and, eq_self_iff_true]
    omega

theorem ensure_grow (b : Buf) (sz : Nat) (hb : b.len ≤ b.data.length)
    (h : b.data.length - b.len < sz) :
    (ensure b sz).1.data.length = 2 * b.data.length + sz := by
  have htl : (b.data.take b.len).length = b.len := List.length_take_of_le hb
  have hm : min ((List.replicate (2 * b.data.length + sz) 0).length)
      ((b.data.take b.len).length) = b.len := by
    simp [htl]; omega
  simp only [ensure, copyList, h, if_true, hm]
  simp [htl]
  omega

theorem take_append_exact (A rest : List Nat) (k : Nat) (h : A.length = k) :
    (A ++ rest).take k = A := by
  subst h
  exact List.take_left A rest

theorem take_append_plus (A rest : List Nat) (k n : Nat) (h : A.length = k) :
    (A ++ rest).take (k + n) = A ++ rest.take n := by
  subst h
  exact List.take_append n

theorem goAppend_spec (b : Buf) (v : Nat) (hb : b.len ≤ b.data.length) :
    (goAppend b v).view = b.view ++ [v] ∧ (goAppend b v).len = b.len + 1 ∧
    (goAppend b v).len ≤ (goAppend b v).data.length := by
  have htl : (b.data.take b.len).length = b.len := List.length_take_of_le hb
  unfold goAppend Buf.view
  by_cases h : b.len < b.data.length
  · simp only [h, if_true]
    refine ⟨?_, by trivial, by simp [htl]⟩
    have h2 := take_append_plus (b.data.take b.len) (v :: b.data.drop (b.len + 1))
      b.len 1 htl
    simpa using h2
  · simp only [h, if_false]
    refine ⟨?_, by trivial, by simp [htl]⟩
    exact List.take_of_length_le (by simp [htl])

theorem setRange_data (b : Buf) (i : Nat) (bs : List Nat) :
    (setRange b i bs).data = b.data.take i ++ bs ++ b.data.drop (i + bs.length) := rfl

theorem setRange_len (b : Buf) (i : Nat) (bs : List Nat) :
    (setRange b i bs).len = b.len := rfl

theorem writeAt_take_exact (d : List Nat) (i : Nat) (bs : List Nat) (hi : i ≤ d.length) :
    (d.take i ++ bs ++ d.drop (i + bs.length)).take (i + bs.length) = d.take i ++ bs := by
  exact take_append_exact (d.take i ++ bs) _ _
    (by simp [List.length_take_of_le hi])

theorem writeAt_take_front (d : List Nat) (i : Nat) (bs : List Nat) (k : Nat)
    (hk : k ≤ i) (hkd : k ≤ d.length) :
    (d.take i ++ bs ++ d.drop (i + bs.length)).take k = d.take k := by
  have h1 : k ≤ (d.take i).length := by rw [List.length_take]; omega
  have h2 : k ≤ (d.take i ++ bs).length := by
    rw [List.length_append]
    omega
  rw [List.take_append_of_le_length h2, List.take_append_of_le_length h1,
    List.take_take]
  congr 1
  omega

theorem writeAt_length (d : List Nat) (i : Nat) (bs : List Nat)
    (hcap : i + bs.length ≤ d.length) :
    (d.take i ++ bs ++ d.drop (i + bs.length)).length = d.length := by
  simp [List.length_take, List.length_drop]
  omega

theorem ensure_write (b : Buf) (k : Nat) (bs : List Nat) (hb : b.len ≤ b.data.length)
    (hk : bs.length = k) :
    (setRange (ensure b k).1 (ensure b k).2 bs).view = b.view ++ bs ∧
    (setRange (ensure b k).1 (ensure b k).2 bs).len = b.len + k ∧
    (setRange (ensure b k).1 (ensure b k).2 bs).len ≤
      (setRange (ensure b k).1 (ensure b k).2 bs).data.length := by
  subst hk
  obtain ⟨e1, e2, e3, e4⟩ := ensure_spec b bs.length hb
  have hi : b.len ≤ (ensure b bs.length).1.data.length := by omega
  unfold Buf.view
  rw [setRange_data, setRange_len, e1, e2]
  refine ⟨?_, rfl, ?_⟩
  · rw [writeAt_take_exact _ _ _ hi, e3]
  · rw [writeAt_length _ _ _ e4]
    omega

theorem ensure_write_trim (b : Buf) (k : Nat) (h : List Nat) (hb : b.len ≤ b.data.length)
    (hh : h.length ≤ k) :
    (⟨(setRange (ensure b k).1 (ensure b k).2 h).data,
        (ensure b k).2 + h.length⟩ : Buf).view = b.view ++ h ∧
    (ensure b k).2 + h.length = b.len + h.length ∧
    (ensure b k).2 + h.length ≤ (setRange (ensure b k).1 (ensure b k).2 h).data.length := by
  obtain ⟨e1, e2, e3, e4⟩ := ensure_spec b k hb
  have hi : b.len ≤ (ensure b k).1.data.length := by omega
  have hcap : b.len + h.length ≤ (ensure b k).1.data.length := by omega
  unfold Buf.view
  rw [setRange_data, e1]
  refine ⟨?_, rfl, ?_⟩
  · rw [writeAt_take_exact _ _ _ hi, e3]
  · rw [writeAt_length _ _ _ hcap]
    omega

theorem five_reserve_write (b : Buf) (s hd : List Nat) (hb : b.len ≤ b.data.length)
    (hh : hd.length ≤ 5) :
    (⟨(setRange (setRange (ensure b (5 + s.length)).1 (ensure b (5 + s.length)).2 hd)
          ((ensure b (5 + s.length)).2 + hd.length)
          (s.take (min ((ensure b (5 + s.length)).1.len -
            ((ensure b (5 + s.length)).2 + hd.length)) s.length))).data,
        (ensure b (5 + s.length)).2 + hd.length +
          min ((ensure b (5 + s.length)).1.len -
            ((ensure b (5 + s.length)).2 + hd.length)) s.length⟩ : Buf).view
      = b.view ++ hd ++ s ∧
    (ensure b (5 + s.length)).2 + hd.length +
        min ((ensure b (5 + s.length)).1.len -
          ((ensure b (5 + s.length)).2 + hd.length)) s.length
      = b.len + hd.length + s.length ∧
    (ensure b (5 + s.length)).2 + hd.length +
        min ((ensure b (5 + s.length)).1.len -
          ((ensure b (5 + s.length)).2 + hd.length)) s.length
      ≤ (setRange (setRange (ensure b (5 + s.length)).1 (ensure b (5 + s.length)).2 hd)
          ((ensure b (5 + s.length)).2 + hd.length)
          (s.take (min ((ensure b (5 + s.length)).1.len -
            ((ensure b (5 + s.length)).2 + hd.length)) s.length))).data.length := by
  obtain ⟨e1, e2, e3, e4⟩ := ensure_spec b (5 + s.length) hb
  have hi : b.len ≤ (ensure b (5 + s.length)).1.data.length := by omega
  have hk : min ((ensure b (5 + s.length)).1.len -
      ((ensure b (5 + s.length)).2 + hd.length)) s.length = s.length := by
    rw [e1, e2]
    omega
  have hcap2 : b.len + hd.length ≤ (ensure b (5 + s.length)).1.data.length := by omega
  have hlen2 : (List.take b.len (ensure b (5 + s.length)).1.data ++ hd ++
      List.drop (b.len + hd.length) (ensure b (5 + s.length)).1.data).length
      = (ensure b (5 + s.length)).1.data.length :=
    writeAt_length _ _ _ hcap2
  unfold Buf.view
  rw [hk, List.take_length, e1, setRange_data, setRange_data,
    writeAt_take_exact _ _ _ hi]
  have hAlen : ((List.take b.len (ensure b (5 + s.length)).1.data ++ hd) ++ s).length
      = b.len + hd.length + s.length := by
    rw [List.length_append, List.length_append, List.length_take_of_le hi]
  refine ⟨?_, rfl, ?_⟩
  · rw [take_append_exact _ _ _ hAlen, e3]
  · rw [List.length_append, hAlen, List.length_drop, hlen2]
    omega

theorem ensure_write_trim2 (b : Buf) (k : Nat) (h : List Nat) (hb : b.len ≤ b.data.length)
    (hh : h.length ≤ k) :
    (⟨(setRange (ensure b k).1 (ensure b k).2 h).data,
        b.len + h.length⟩ : Buf).view = b.view ++ h ∧
    b.len + h.length ≤ (setRange (ensure b k).1 (ensure b k).2 h).data.length := by
  obtain ⟨e1, e2, e3, e4⟩ := ensure_spec b k hb
  have hi : b.len ≤ (ensure b k).1.data.length := by omega
  have hcap : b.len + h.length ≤ (ensure b k).1.data.length := by omega
  unfold Buf.view
  rw [setRange_data, e1]
  refine ⟨?_, ?_⟩
  · rw [writeAt_take_exact _ _ _ hi, e3]
  · rw [writeAt_length _ _ _ hcap]
    omega

@[simp] theorem putMint8_length (i : Int) : (putMint8 i).length = 2 := by
  simp [putMint8]

@[simp] theorem putMint16_length (i : Int) : (putMint16 i).length = 3 := by
  simp [putMint16, intBE_length]

@[simp] theorem putMint32_length (i : Int) : (putMint32 i).length = 5 := by
  simp [putMint32, intBE_length]

@[simp] theorem putMint64_length (i : Int) : (putMint64 i).length = 9 := by
  simp [putMint64, intBE_length]

@[simp] theorem putMuint8_length (u : Nat) : (putMuint8 u).length = 2 := by
  simp [putMuint8]

@[simp] theorem putMuint16_length (u : Nat) : (putMuint16 u).length = 3 := by
  simp [putMuint16, be_length]

@[simp] theorem putMuint32_length (u : Nat) : (putMuint32 u).length = 5 := by
  simp [putMuint32, be_length]

@[simp] theorem putMuint64_length (u : Nat) : (putMuint64 u).length = 9 := by
  simp [putMuint64, be_length]

@[simp] theorem prefixu32_length (u pre : Nat) : (prefixu32 u pre).length = 5 := by
  simp [prefixu32, be_length]

@[simp] theorem prefixu64_length (u pre : Nat) : (prefixu64 u pre).length = 9 := by
  simp [prefixu64, be_length]

@[simp] theorem put232_length (r i : Nat) : (put232 r i).length = 8 := by
  simp [put232, be_length]

@[simp] theorem put264_length (r i : Nat) : (put264 r i).length = 16 := by
  simp [put264, be_length]

@[simp] theorem putUnix_length (sec : Int) (nsec : Nat) : (putUnix sec nsec).length = 12 := by
  simp [putUnix, intBE_length, be_length]

/-- The byte sequence `AppendInt64` appends, branch for branch as in the
source's ladder. -/
def int64Bytes (i : Int) : List Nat :=
  if 0 ≤ i then
    if i ≤ 127 then [wfixint i.toNat]
    else if i ≤ 32767 then putMint16 i
    else if i ≤ 2147483647 then putMint32 i
    else putMint64 i
  else
    if -31 ≤ i then [wnfixint i]
    else if -128 ≤ i then putMint8 i
    else if -32768 ≤ i then putMint16 i
    else if -2147483648 ≤ i then putMint32 i
    else putMint64 i

/-- The byte sequence `AppendUint64` appends, branch for branch as in the
source's ladder. -/
def uint64Bytes (u : Nat) : List Nat :=
  if u ≤ 127 then [wfixint u]
  else if u ≤ 255 then putMuint8 u
  else if u ≤ 65535 then putMuint16 u
  else if u ≤ 4294967295 then putMuint32 u
  else putMuint64 u

theorem appendInt64_spec (b : Buf) (i : Int) (hb : b.len ≤ b.data.length) :
    (AppendInt64 b i).view = b.view ++ int64Bytes i ∧
    (AppendInt64 b i).len = b.len + (int64Bytes i).length ∧
    (AppendInt64 b i).len ≤ (AppendInt64 b i).data.length := by
  unfold AppendInt64 int64Bytes
  split
  · split
    · have h := goAppend_spec b (wfixint i.toNat) hb
      exact ⟨h.1, by rw [h.2.1]; simp, h.2.2⟩
    · split
      · have h := ensure_write b 3 (putMint16 i) hb (by simp)
        exact ⟨h.1, by rw [h.2.1]; simp, h.2.2⟩
      · split
        · have h := ensure_write b 5 (putMint32 i) hb (by simp)
          exact ⟨h.1, by rw [h.2.1]; simp, h.2.2⟩
        · have h := ensure_write b 9 (putMint64 i) hb (by simp)
          exact ⟨h.1, by rw [h.2.1]; simp, h.2.2⟩
  · split
    · have h := goAppend_spec b (wnfixint i) hb
      exact ⟨h.1, by rw [h.2.1]; simp, h.2.2⟩
    · split
      · have h := ensure_write b 2 (putMint8 i) hb (by simp)
        exact ⟨h.1, by rw [h.2.1]; simp, h.2.2⟩
      · split
        · have h := ensure_write b 3 (putMint16 i) hb (by simp)
          exact ⟨h.1, by rw [h.2.1]; simp, h.2.2⟩
        · split
          · have h := ensure_write b 5 (putMint32 i) hb (by simp)
            exact ⟨h.1, by rw [h.2.1]; simp, h.2.2⟩
          · have h := ensure_write b 9 (putMint64 i) hb (by simp)
            exact ⟨h.1, by rw [h.2.1]; simp, h.2.2⟩

theorem appendUint64_spec (b : Buf) (u : Nat) (hb : b.len ≤ b.data.length) :
    (AppendUint64 b u).view = b.view ++ uint64Bytes u ∧
    (AppendUint64 b u).len = b.len + (uint64Bytes u).length ∧
    (AppendUint64 b u).len ≤ (AppendUint64 b u).data.length := by
  unfold AppendUint64 uint64Bytes
  split
  · have h := goAppend_spec b (wfixint u) hb
    exact ⟨h.1, by rw [h.2.1]; simp, h.2.2⟩
  · split
    · have h := ensure_write b 2 (putMuint8 u) hb (by simp)
      exact ⟨h.1, by rw [h.2.1]; simp, h.2.2⟩
    · split
      · have h := ensure_write b 3 (putMuint16 u) hb (by simp)
        exact ⟨h.1, by rw [h.2.1]; simp, h.2.2⟩
      · split
        · have h := ensure_write b 5 (putMuint32 u) hb (by simp)
          exact ⟨h.1, by rw [h.2.1]; simp, h.2.2⟩
        · have h := ensure_write b 9 (putMuint64 u) hb (by simp)
          exact ⟨h.1, by rw [h.2.1]; simp, h.2.2⟩

theorem appendNil_spec (b : Buf) (hb : b.len ≤ b.data.length) :
    (AppendNil b).view = b.view ++ [mnil] ∧ (AppendNil b).len = b.len + 1 ∧
    (AppendNil b).len ≤ (AppendNil b).data.length := by
  unfold AppendNil
  exact goAppend_spec b mnil hb

theorem appendBool_spec (b : Buf) (t : Bool) (hb : b.len ≤ b.data.length) :
    (AppendBool b t).view = b.view ++ [if t then mtrue else mfalse] ∧
    (AppendBool b t).len = b.len + 1 ∧
    (AppendBool b t).len ≤ (AppendBool b t).data.length := by
  unfold AppendBool
  cases t
  · simpa using goAppend_spec b mfalse hb
  · simpa using goAppend_spec b mtrue hb

theorem appendFloat64_spec (b : Buf) (u : Nat) (hb : b.len ≤ b.data.length) :
    (AppendFloat64 b u).view = b.view ++ prefixu64 u mfloat64 ∧
    (AppendFloat64 b u).len = b.len + Float64Size ∧
    (AppendFloat64 b u).len ≤ (AppendFloat64 b u).data.length := by
  have h := ensure_write b Float64Size (prefixu64 u mfloat64) hb (by simp [Float64Size])
  simpa only [AppendFloat64] using h

theorem appendFloat32_spec (b : Buf) (u : Nat) (hb : b.len ≤ b.data.length) :
    (AppendFloat32 b u).view = b.view ++ prefixu32 u mfloat32 ∧
    (AppendFloat32 b u).len = b.len + Float32Size ∧
    (AppendFloat32 b u).len ≤ (AppendFloat32 b u).data.length := by
  have h := ensure_write b Float32Size (prefixu32 u mfloat32) hb (by simp [Float32Size])
  simpa only [AppendFloat32] using h

theorem appendComplex64_spec (b : Buf) (r i : Nat) (hb : b.len ≤ b.data.length) :
    (AppendComplex64 b r i).view
      = b.view ++ (mfixext8 :: Complex64Extension :: put232 r i) ∧
    (AppendComplex64 b r i).len = b.len + Complex64Size ∧
    (AppendComplex64 b r i).len ≤ (AppendComplex64 b r i).data.length := by
  have h := ensure_write b Complex64Size (mfixext8 :: Complex64Extension :: put232 r i) hb
    (by simp [Complex64Size])
  simpa only [AppendComplex64] using h

theorem appendComplex128_spec (b : Buf) (r i : Nat) (hb : b.len ≤ b.data.length) :
    (AppendComplex128 b r i).view
      = b.view ++ (mfixext16 :: Complex128Extension :: put264 r i) ∧
    (AppendComplex128 b r i).len = b.len + Complex128Size ∧
    (AppendComplex128 b r i).len ≤ (AppendComplex128 b r i).data.length := by
  have h := ensure_write b Complex128Size (mfixext16 :: Complex128Extension :: put264 r i) hb
    (by simp [Complex128Size])
  simpa only [AppendComplex128] using h

theorem appendTime_spec (b : Buf) (t : GoTime) (hb : b.len ≤ b.data.length) :
    (AppendTime b t).view
      = b.view ++ (mext8 :: 12 :: TimeExtension :: putUnix t.sec t.nsec) ∧
    (AppendTime b t).len = b.len + TimeSize ∧
    (AppendTime b t).len ≤ (AppendTime b t).data.length := by
  have h := ensure_write b TimeSize
    (mext8 :: 12 :: TimeExtension :: putUnix t.utc.unix t.utc.nanosecond) hb
    (by simp [TimeSize])
  simpa only [AppendTime, GoTime.utc, GoTime.unix, GoTime.nanosecond] using h

theorem appendMapHeader_spec (b : Buf) (sz : Nat) (hb : b.len ≤ b.data.length) :
    (AppendMapHeader b sz).view = b.view ++ putMapHdr (sz % 2 ^ 32) ∧
    (AppendMapHeader b sz).len = b.len + (putMapHdr (sz % 2 ^ 32)).length ∧
    (AppendMapHeader b sz).len ≤ (AppendMapHeader b sz).data.length := by
  have h := ensure_write_trim b 8 (putMapHdr (sz % 2 ^ 32)) hb (putMapHdr_length_le _)
  exact ⟨h.1, h.2.1, h.2.2⟩

theorem appendArrayHeader_spec (b : Buf) (sz : Nat) (hb : b.len ≤ b.data.length) :
    (AppendArrayHeader b sz).view = b.view ++ putArrayHdr (sz % 2 ^ 32) ∧
    (AppendArrayHeader b sz).len = b.len + (putArrayHdr (sz % 2 ^ 32)).length ∧
    (AppendArrayHeader b sz).len ≤ (AppendArrayHeader b sz).data.length := by
  have h := ensure_write_trim2 b 8 (putArrayHdr (sz % 2 ^ 32)) hb (putArrayHdr_length_le _)
  exact ⟨h.1, rfl, h.2⟩

theorem appendString_spec (b : Buf) (s : List Nat) (hb : b.len ≤ b.data.length) :
    (AppendString b s).view = b.view ++ putStrHdr s.length ++ s ∧
    (AppendString b s).len = b.len + (putStrHdr s.length).length + s.length ∧
    (AppendString b s).len ≤ (AppendString b s).data.length := by
  have h := five_reserve_write b s (putStrHdr s.length) hb (putStrHdr_length_le _)
  exact ⟨h.1, h.2.1, h.2.2⟩

theorem appendStringFromBytes_spec (b : Buf) (s : List Nat) (hb : b.len ≤ b.data.length) :
    (AppendStringFromBytes b s).view = b.view ++ putStrHdr s.length ++ s ∧
    (AppendStringFromBytes b s).len = b.len + (putStrHdr s.length).length + s.length ∧
    (AppendStringFromBytes b s).len ≤ (AppendStringFromBytes b s).data.length := by
  have h := five_reserve_write b s (putStrHdr s.length) hb (putStrHdr_length_le _)
  exact ⟨h.1, h.2.1, h.2.2⟩

theorem appendBytes_spec (b : Buf) (s : List Nat) (hb : b.len ≤ b.data.length) :
    (AppendBytes b s).view = b.view ++ putBinHdr s.length ++ s ∧
    (AppendBytes b s).len = b.len + (putBinHdr s.length).length + s.length ∧
    (AppendBytes b s).len ≤ (AppendBytes b s).data.length := by
  have h := five_reserve_write b s (putBinHdr s.length) hb (putBinHdr_length_le _)
  exact ⟨h.1, h.2.1, h.2.2⟩

/-- The bytes the `AppendMapStrStr` loop appends for the given key/value pairs. -/
def strPairsBytes : List (List Nat × List Nat) → List Nat
  | [] => []
  | (k, v) :: rest =>
    putStrHdr k.length ++ k ++ (putStrHdr v.length ++ v ++ strPairsBytes rest)

theorem mapStrStr_loop (m : List (List Nat × List Nat)) : ∀ b : Buf,
    b.len ≤ b.data.length →
    (List.foldl (fun acc kv => AppendString (AppendString acc kv.1) kv.2) b m).view
      = b.view ++ strPairsBytes m ∧
    (List.foldl (fun acc kv => AppendString (AppendString acc kv.1) kv.2) b m).len
      = b.len + (strPairsBytes m).length ∧
    (List.foldl (fun acc kv => AppendString (AppendString acc kv.1) kv.2) b m).len
      ≤ (List.foldl (fun acc kv => AppendString (AppendString acc kv.1) kv.2) b m).data.length := by
  induction m with
  | nil =>
    intro b hb
    exact ⟨by simp [strPairsBytes], by simp [strPairsBytes], hb⟩
  | cons kv rest ih =>
    intro b hb
    obtain ⟨k, v⟩ := kv
    have h1 := appendString_spec b k hb
    have h2 := appendString_spec (AppendString b k) v h1.2.2
    have ih2 := ih (AppendString (AppendString b k) v) h2.2.2
    simp only [List.foldl_cons]
    refine ⟨?_, ?_, ih2.2.2⟩
    · rw [ih2.1, h2.1, h1.1]
      simp [strPairsBytes, List.append_assoc]
    · rw [ih2.2.1, h2.2.1, h1.2.1]
      simp [strPairsBytes]
      omega
  
theorem appendMapStrStr_spec (b : Buf) (m : List (List Nat × List Nat))
    (hb : b.len ≤ b.data.length) :
    (AppendMapStrStr b m).view
      = b.view ++ putMapHdr (m.length % 2 ^ 32) ++ strPairsBytes m ∧
    (AppendMapStrStr b m).len
      = b.len + (putMapHdr (m.length % 2 ^ 32)).length + (strPairsBytes m).length ∧
    (AppendMapStrStr b m).len ≤ (AppendMapStrStr b m).data.length := by
  have hdr := appendMapHeader_spec b (m.length % 2 ^ 32) hb
  have hmod : m.length % 2 ^ 32 % 2 ^ 32 = m.length % 2 ^ 32 :=
    Nat.mod_mod_of_dvd _ dvd_rfl
  rw [hmod] at hdr
  have loop := mapStrStr_loop m (AppendMapHeader b (m.length % 2 ^ 32)) hdr.2.2
  unfold AppendMapStrStr
  refine ⟨?_, ?_, loop.2.2⟩
  · rw [loop.1, hdr.1]
  · rw [loop.2.1, hdr.2.1]

theorem view_take_front (b o : Buf) (bs : List Nat) (hb : b.len ≤ b.data.length)
    (hv : o.view = b.view ++ bs) : o.view.take b.len = b.view := by
  have hl : b.view.length = b.len := List.length_take_of_le hb
  rw [hv, List.take_append_of_le_length (by rw [hl])]
  exact List.take_of_length_le (by rw [hl])

/-- C1: the source encodes `-32` in the two-byte int8 form `[0xd0, 0xe0]`
(its negative-fixint guard is `i >= -31`), although the one-byte negative
fixint `0xe0` represents `-32` exactly; `-31` still gets the one-byte form
`[0xe1]` and `-33` the two-byte int8 form, and `AppendInt8` delegates to
`AppendInt64`.  This contradicts the spec's `-32 ≤ v ≤ -1` fixint range and
its shortest-form invariant. -/
theorem appendInt64_neg32_not_fixint :
    Buf.view (AppendInt64 emptyBuf (-32)) = [0xd0, 0xe0] ∧
    (AppendInt64 emptyBuf (-32)).len = 2 ∧
    Buf.view (AppendInt64 emptyBuf (-31)) = [0xe1] ∧
    Buf.view (AppendInt64 emptyBuf (-33)) = [0xd0, 0xdf] ∧
    Buf.view (AppendInt8 emptyBuf (-32)) = [0xd0, 0xe0] ∧
    Buf.view (AppendInt16 emptyBuf (-32)) = [0xd0, 0xe0] ∧
    Buf.view (AppendInt32 emptyBuf (-32)) = [0xd0, 0xe0] := by
  decide

/-- C2 counterexample: the claim says `AppendInt64` encodes `128` as the
2-byte uint8 form; the source encodes it in the 3-byte int16 form
`[0xd1, 0x00, 0x80]`. -/
theorem appendInt64_128_is_int16_not_uint8 :
    Buf.view (AppendInt64 emptyBuf 128) = [0xd1, 0x00, 0x80] ∧
    ¬(AppendInt64 emptyBuf 128).len = 2 := by
  decide

/-- C2 amended: `127` is a one-byte positive fixint for both entry points and
`128` is the 2-byte uint8 form for `AppendUint64`; `AppendInt64` encodes
`128` in the 3-byte int16 form, its smallest signed form above `MaxInt8`. -/
theorem int_entry_points_127_128 :
    Buf.view (AppendInt64 emptyBuf 127) = [0x7f] ∧
    Buf.view (AppendUint64 emptyBuf 127) = [0x7f] ∧
    Buf.view (AppendUint64 emptyBuf 128) = [0xcc, 0x80] ∧
    Buf.view (AppendInt64 emptyBuf 128) = [0xd1, 0x00, 0x80] := by
  decide

/-- C3: `ensure b sz` preserves the first `len(b)` bytes, extends the slice by
exactly `sz` bytes within capacity, reports insertion offset `len(b)`, and on
insufficient capacity allocates backing storage of size exactly
`2*cap(b) + sz`. -/
theorem ensure_contract (b : Buf) (sz : Nat) (hb : b.len ≤ b.data.length) :
    ((ensure b sz).1.view.take b.len = b.view ∧
     (ensure b sz).1.len = b.len + sz ∧
     b.len + sz ≤ (ensure b sz).1.data.length ∧
     (ensure b sz).2 = b.len) ∧
    (b.data.length - b.len < sz →
      (ensure b sz).1.data.length = 2 * b.data.length + sz) := by
  obtain ⟨e1, e2, e3, e4⟩ := ensure_spec b sz hb
  refine ⟨⟨?_, e2, e4, e1⟩, fun h => ensure_grow b sz hb h⟩
  unfold Buf.view
  rw [e2, List.take_take, Nat.min_eq_left (by omega), e3]

/-- Witness for C3 at a concrete buffer (reallocation case: cap 1, len 1,
request 2). -/
theorem ensure_contract_witness :
    (⟨[7], 1⟩ : Buf).len ≤ (⟨[7], 1⟩ : Buf).data.length ∧
    (((ensure ⟨[7], 1⟩ 2).1.view.take (⟨[7], 1⟩ : Buf).len = (⟨[7], 1⟩ : Buf).view ∧
      (ensure ⟨[7], 1⟩ 2).1.len = (⟨[7], 1⟩ : Buf).len + 2 ∧
      (⟨[7], 1⟩ : Buf).len + 2 ≤ (ensure ⟨[7], 1⟩ 2).1.data.length ∧
      (ensure ⟨[7], 1⟩ 2).2 = (⟨[7], 1⟩ : Buf).len) ∧
     ((⟨[7], 1⟩ : Buf).data.length - (⟨[7], 1⟩ : Buf).len < 2 →
      (ensure ⟨[7], 1⟩ 2).1.data.length = 2 * (⟨[7], 1⟩ : Buf).data.length + 2)) :=
  ⟨by decide, ensure_contract ⟨[7], 1⟩ 2 (by decide)⟩

/-- C5: `AppendTime` appends exactly 15 bytes — the ext8 tag, length byte 12,
the Time extension code, 8 big-endian bytes of the signed Unix seconds, then
4 big-endian bytes of the nanosecond fraction — and two times denoting the
same instant under different zone representations append identical bytes. -/
theorem appendTime_layout_zone_independent (b : Buf) (t : GoTime)
    (hb : b.len ≤ b.data.length) :
    (AppendTime b t).len = b.len + 15 ∧
    (AppendTime b t).view
      = b.view ++ (mext8 :: 12 :: TimeExtension ::
          (intBE 8 t.sec ++ be 4 (t.nsec % 2 ^ 32))) ∧
    ∀ t2 : GoTime, t2.sec = t.sec → t2.nsec = t.nsec →
      AppendTime b t2 = AppendTime b t := by
  have h := appendTime_spec b t hb
  refine ⟨by rw [h.2.1]; rfl, by simpa [putUnix] using h.1, ?_⟩
  intro t2 h1 h2
  simp only [AppendTime, GoTime.utc, GoTime.unix, GoTime.nanosecond, h1, h2]

/-- Witness for C5: a concrete buffer and time, and the same instant under a
different zone tag appending identical bytes. -/
theorem appendTime_layout_zone_independent_witness :
    emptyBuf.len ≤ emptyBuf.data.length ∧
    (AppendTime emptyBuf ⟨5, 6, 0⟩).len = emptyBuf.len + 15 ∧
    AppendTime emptyBuf ⟨5, 6, 99⟩ = AppendTime emptyBuf ⟨5, 6, 0⟩ :=
  ⟨by decide,
   (appendTime_layout_zone_independent emptyBuf ⟨5, 6, 0⟩ (by decide)).1,
   (appendTime_layout_zone_independent emptyBuf ⟨5, 6, 0⟩ (by decide)).2.2
     ⟨5, 6, 99⟩ rfl rfl⟩

/-- Modelled from the source comments in `AppendBytes`/`AppendString`: the
32-bit-length header form is stored through a single 8-byte write ("we need 8
free bytes of space in order to store the prefix+uint32 combo"), which only
occurs when the payload length exceeds 65535; narrower headers touch exactly
their own width. -/
def strHdrWriteExtent (sz : Nat) : Nat :=
  if 65535 < sz then 8 else (putStrHdr sz).length

/-- Modelled from the source comments, as `strHdrWriteExtent` but for the
binary header. -/
def binHdrWriteExtent (sz : Nat) : Nat :=
  if 65535 < sz then 8 else (putBinHdr sz).length

/-- C9: after `ensure(b, 5+sz)` every byte touched by `AppendString` and
`AppendBytes` — the header write (8 bytes past the offset in the wide case,
which requires `sz > 65535` so that `5+sz` covers it) and the payload copy —
lies within the reserved region, which itself lies within capacity. -/
theorem append_str_bytes_writes_in_bounds (b : Buf) (s bts : List Nat)
    (hb : b.len ≤ b.data.length) :
    ((ensure b (5 + s.length)).2 + strHdrWriteExtent s.length
       ≤ (ensure b (5 + s.length)).1.len ∧
     (ensure b (5 + s.length)).2 + (putStrHdr s.length).length + s.length
       ≤ (ensure b (5 + s.length)).1.len ∧
     (ensure b (5 + s.length)).1.len ≤ (ensure b (5 + s.length)).1.data.length) ∧
    ((ensure b (5 + bts.length)).2 + binHdrWriteExtent bts.length
       ≤ (ensure b (5 + bts.length)).1.len ∧
     (ensure b (5 + bts.length)).2 + (putBinHdr bts.length).length + bts.length
       ≤ (ensure b (5 + bts.length)).1.len ∧
     (ensure b (5 + bts.length)).1.len ≤ (ensure b (5 + bts.length)).1.data.length) := by
  obtain ⟨e1, e2, e3, e4⟩ := ensure_spec b (5 + s.length) hb
  obtain ⟨f1, f2, f3, f4⟩ := ensure_spec b (5 + bts.length) hb
  have hs5 := putStrHdr_length_le s.length
  have hb5 := putBinHdr_length_le bts.length
  have hse : strHdrWriteExtent s.length ≤ 5 + s.length := by
    unfold strHdrWriteExtent
    split <;> omega
  have hbe : binHdrWriteExtent bts.length ≤ 5 + bts.length := by
    unfold binHdrWriteExtent
    split <;> omega
  refine ⟨⟨?_, ?_, ?_⟩, ?_, ?_, ?_⟩ <;> omega

/-- Witness for C9: a concrete buffer and payloads. -/
theorem append_str_bytes_writes_in_bounds_witness :
    emptyBuf.len ≤ emptyBuf.data.length ∧
    (((ensure emptyBuf (5 + ([1] : List Nat).length)).2
        + strHdrWriteExtent ([1] : List Nat).length
        ≤ (ensure emptyBuf (5 + ([1] : List Nat).length)).1.len ∧
      (ensure emptyBuf (5 + ([1] : List Nat).length)).2
        + (putStrHdr ([1] : List Nat).length).length + ([1] : List Nat).length
        ≤ (ensure emptyBuf (5 + ([1] : List Nat).length)).1.len ∧
      (ensure emptyBuf (5 + ([1] : List Nat).length)).1.len
        ≤ (ensure emptyBuf (5 + ([1] : List Nat).length)).1.data.length) ∧
     ((ensure emptyBuf (5 + ([] : List Nat).length)).2
        + binHdrWriteExtent ([] : List Nat).length
        ≤ (ensure emptyBuf (5 + ([] : List Nat).length)).1.len ∧
      (ensure emptyBuf (5 + ([] : List Nat).length)).2
        + (putBinHdr ([] : List Nat).length).length + ([] : List Nat).length
        ≤ (ensure emptyBuf (5 + ([] : List Nat).length)).1.len ∧
      (ensure emptyBuf (5 + ([] : List Nat).length)).1.len
        ≤ (ensure emptyBuf (5 + ([] : List Nat).length)).1.data.length)) :=
  ⟨by decide, append_str_bytes_writes_in_bounds emptyBuf [1] [] (by decide)⟩

/-- The frame property of an append: the first `len(b)` bytes of the result
equal the bytes of `b`, and the resulting length is `len(b)` plus the encoded
length `k`. -/
def PureExtensionAt (b o : Buf) (k : Nat) : Prop :=
  o.view.take b.len = b.view ∧ o.len = b.len + k

theorem pureExt_of (b o : Buf) (bs : List Nat) (k : Nat) (hb : b.len ≤ b.data.length)
    (hv : o.view = b.view ++ bs) (hl : o.len = b.len + k) : PureExtensionAt b o k :=
  ⟨view_take_front b o bs hb hv, hl⟩

/-- C4: every append operation of the source is a pure extension — it
preserves the first `len(b)` bytes (also when `ensure` reallocates) and
returns length `len(b)` plus the encoded length of the value — and every
width-specific delegator returns exactly its delegate's result. -/
theorem append_ops_pure_extension (b : Buf) (i : Int) (u : Nat) (t : Bool)
    (fb db : Nat) (s bts : List Nat) (r im : Nat) (tm : GoTime) (hsz asz : Nat)
    (m : List (List Nat × List Nat)) (hb : b.len ≤ b.data.length) :
    PureExtensionAt b (AppendInt64 b i) (int64Bytes i).length ∧
    PureExtensionAt b (AppendUint64 b u) (uint64Bytes u).length ∧
    PureExtensionAt b (AppendNil b) 1 ∧
    PureExtensionAt b (AppendBool b t) 1 ∧
    PureExtensionAt b (AppendFloat32 b fb) Float32Size ∧
    PureExtensionAt b (AppendFloat64 b db) Float64Size ∧
    PureExtensionAt b (AppendString b s) ((putStrHdr s.length).length + s.length) ∧
    PureExtensionAt b (AppendStringFromBytes b s)
      ((putStrHdr s.length).length + s.length) ∧
    PureExtensionAt b (AppendBytes b bts) ((putBinHdr bts.length).length + bts.length) ∧
    PureExtensionAt b (AppendMapHeader b hsz) (putMapHdr (hsz % 2 ^ 32)).length ∧
    PureExtensionAt b (AppendArrayHeader b asz) (putArrayHdr (asz % 2 ^ 32)).length ∧
    PureExtensionAt b (AppendComplex64 b r im) Complex64Size ∧
    PureExtensionAt b (AppendComplex128 b r im) Complex128Size ∧
    PureExtensionAt b (AppendTime b tm) TimeSize ∧
    PureExtensionAt b (AppendMapStrStr b m)
      ((putMapHdr (m.length % 2 ^ 32)).length + (strPairsBytes m).length) ∧
    AppendInt b i = AppendInt64 b i ∧ AppendInt8 b i = AppendInt64 b i ∧
    AppendInt16 b i = AppendInt64 b i ∧ AppendInt32 b i = AppendInt64 b i ∧
    AppendUint b u = AppendUint64 b u ∧ AppendUint8 b u = AppendUint64 b u ∧
    AppendUint16 b u = AppendUint64 b u ∧ AppendUint32 b u = AppendUint64 b u ∧
    AppendByte b u = AppendUint64 b u := by
  refine ⟨?_, ?_, ?_, ?_, ?_, ?_, ?_, ?_, ?_, ?_, ?_, ?_, ?_, ?_, ?_,
    rfl, rfl, rfl, rfl, rfl, rfl, rfl, rfl, rfl⟩
  · have h := appendInt64_spec b i hb
    exact pureExt_of _ _ _ _ hb h.1 h.2.1
  · have h := appendUint64_spec b u hb
    exact pureExt_of _ _ _ _ hb h.1 h.2.1
  · have h := appendNil_spec b hb
    exact pureExt_of _ _ _ _ hb h.1 h.2.1
  · have h := appendBool_spec b t hb
    exact pureExt_of _ _ _ _ hb h.1 h.2.1
  · have h := appendFloat32_spec b fb hb
    exact pureExt_of _ _ _ _ hb h.1 h.2.1
  · have h := appendFloat64_spec b db hb
    exact pureExt_of _ _ _ _ hb h.1 h.2.1
  · have h := appendString_spec b s hb
    exact pureExt_of _ _ (putStrHdr s.length ++ s) _ hb
      (by rw [h.1, List.append_assoc]) (by rw [h.2.1]; omega)
  · have h := appendStringFromBytes_spec b s hb
    exact pureExt_of _ _ (putStrHdr s.length ++ s) _ hb
      (by rw [h.1, List.append_assoc]) (by rw [h.2.1]; omega)
  · have h := appendBytes_spec b bts hb
    exact pureExt_of _ _ (putBinHdr bts.length ++ bts) _ hb
      (by rw [h.1, List.append_assoc]) (by rw [h.2.1]; omega)
  · have h := appendMapHeader_spec b hsz hb
    exact pureExt_of _ _ _ _ hb h.1 h.2.1
  · have h := appendArrayHeader_spec b asz hb
    exact pureExt_of _ _ _ _ hb h.1 h.2.1
  · have h := appendComplex64_spec b r im hb
    exact pureExt_of _ _ _ _ hb h.1 h.2.1
  · have h := appendComplex128_spec b r im hb
    exact pureExt_of _ _ _ _ hb h.1 h.2.1
  · have h := appendTime_spec b tm hb
    exact pureExt_of _ _ _ _ hb h.1 h.2.1
  · have h := appendMapStrStr_spec b m hb
    exact pureExt_of _ _ (putMapHdr (m.length % 2 ^ 32) ++ strPairsBytes m) _ hb
      (by rw [h.1, List.append_assoc]) (by rw [h.2.1]; omega)

/-- Witness for C4 at a concrete nonempty buffer and concrete values. -/
theorem append_ops_pure_extension_witness :
    (⟨[9], 1⟩ : Buf).len ≤ (⟨[9], 1⟩ : Buf).data.length ∧
    (PureExtensionAt ⟨[9], 1⟩ (AppendInt64 ⟨[9], 1⟩ (-5)) (int64Bytes (-5)).length ∧
     PureExtensionAt ⟨[9], 1⟩ (AppendUint64 ⟨[9], 1⟩ 300) (uint64Bytes 300).length ∧
     PureExtensionAt ⟨[9], 1⟩ (AppendNil ⟨[9], 1⟩) 1 ∧
     PureExtensionAt ⟨[9], 1⟩ (AppendBool ⟨[9], 1⟩ true) 1 ∧
     PureExtensionAt ⟨[9], 1⟩ (AppendFloat32 ⟨[9], 1⟩ 1) Float32Size ∧
     PureExtensionAt ⟨[9], 1⟩ (AppendFloat64 ⟨[9], 1⟩ 2) Float64Size ∧
     PureExtensionAt ⟨[9], 1⟩ (AppendString ⟨[9], 1⟩ [1, 2])
       ((putStrHdr ([1, 2] : List Nat).length).length + ([1, 2] : List Nat).length) ∧
     PureExtensionAt ⟨[9], 1⟩ (AppendStringFromBytes ⟨[9], 1⟩ [1, 2])
       ((putStrHdr ([1, 2] : List Nat).length).length + ([1, 2] : List Nat).length) ∧
     PureExtensionAt ⟨[9], 1⟩ (AppendBytes ⟨[9], 1⟩ [3])
       ((putBinHdr ([3] : List Nat).length).length + ([3] : List Nat).length) ∧
     PureExtensionAt ⟨[9], 1⟩ (AppendMapHeader ⟨[9], 1⟩ 3) (putMapHdr (3 % 2 ^ 32)).length ∧
     PureExtensionAt ⟨[9], 1⟩ (AppendArrayHeader ⟨[9], 1⟩ 20)
       (putArrayHdr (20 % 2 ^ 32)).length ∧
     PureExtensionAt ⟨[9], 1⟩ (AppendComplex64 ⟨[9], 1⟩ 4 5) Complex64Size ∧
     PureExtensionAt ⟨[9], 1⟩ (AppendComplex128 ⟨[9], 1⟩ 4 5) Complex128Size ∧
     PureExtensionAt ⟨[9], 1⟩ (AppendTime ⟨[9], 1⟩ ⟨1, 2, 3⟩) TimeSize ∧
     PureExtensionAt ⟨[9], 1⟩ (AppendMapStrStr ⟨[9], 1⟩ [([1], [2])])
       ((putMapHdr (([([1], [2])] : List (List Nat × List Nat)).length % 2 ^ 32)).length +
         (strPairsBytes [([1], [2])]).length) ∧
     AppendInt ⟨[9], 1⟩ (-5) = AppendInt64 ⟨[9], 1⟩ (-5) ∧
     AppendInt8 ⟨[9], 1⟩ (-5) = AppendInt64 ⟨[9], 1⟩ (-5) ∧
     AppendInt16 ⟨[9], 1⟩ (-5) = AppendInt64 ⟨[9], 1⟩ (-5) ∧
     AppendInt32 ⟨[9], 1⟩ (-5) = AppendInt64 ⟨[9], 1⟩ (-5) ∧
     AppendUint ⟨[9], 1⟩ 300 = AppendUint64 ⟨[9], 1⟩ 300 ∧
     AppendUint8 ⟨[9], 1⟩ 300 = AppendUint64 ⟨[9], 1⟩ 300 ∧
     AppendUint16 ⟨[9], 1⟩ 300 = AppendUint64 ⟨[9], 1⟩ 300 ∧
     AppendUint32 ⟨[9], 1⟩ 300 = AppendUint64 ⟨[9], 1⟩ 300 ∧
     AppendByte ⟨[9], 1⟩ 300 = AppendUint64 ⟨[9], 1⟩ 300) :=
  ⟨by decide,
   append_ops_pure_extension ⟨[9], 1⟩ (-5) 300 true 1 2 [1, 2] [3] 4 5 ⟨1, 2, 3⟩ 3 20
     [([1], [2])] (by decide)⟩

/-- C7: `AppendIntf` encodes an untyped nil as exactly the Nil byte with no
error, and for any value carrying the Marshaler capability it returns exactly
the result of the value's own `MarshalMsg` (error propagated verbatim),
regardless of any Extension capability or concrete shape the value also has. -/
theorem appendIntf_nil_and_marshaler_precedence (b : Buf)
    (m : Buf → Buf × Option Err) (e : Option ExtVal) (c : Conc) :
    AppendIntf b none = (AppendNil b, none) ∧
    AppendIntf b (some (.mk (some m) e c)) = m b := by
  constructor
  · simp [AppendIntf]
  · simp [AppendIntf]

theorem reflect_loop_eq (l : List (Option Iface)) : ∀ b : Buf,
    appendReflectElems b l = appendIntfElems b l := by
  induction l with
  | nil =>
    intro b
    simp [appendReflectElems, appendIntfElems]
  | cons v rest ih =>
    intro b
    simp only [appendReflectElems, appendIntfElems]
    cases h : (AppendIntf b v).2 <;> simp [h, ih]

/-- C8: a sequence-shaped value handled by the generic introspection fallback
and a `[]interface{}` value with the same elements in the same order produce
identical output — the same array header, the same per-element encodings, and
the same error behaviour. -/
theorem appendIntf_seq_fallback_eq_slice (b : Buf) (ty : String)
    (l : List (Option Iface)) :
    AppendIntf b (some (.mk none none (.seqOther ty l)))
      = AppendIntf b (some (.mk none none (.sliceIntf l))) := by
  simp only [AppendIntf, appendConc]
  exact reflect_loop_eq l _

/-- C10: a non-nil pointer value whose own type carries neither the Marshaler
nor the Extension capability always fails with `UnsupportedType` naming the
pointer type (for every pointee, supported or not): the dispatch has no case
that dereferences pointers. -/
theorem appendIntf_pointer_unsupported (b : Buf) (p : Conc) :
    AppendIntf b (some (.mk none none (.ptrV p)))
      = (b, some (Err.unsupported ("*" ++ concTypeName p))) := by
  simp [AppendIntf, appendConc]

mutual
theorem appendIntf_err_eq (b : Buf) : (i : Option Iface) → capFree i = true →
    (AppendIntf b i).2 = Option.map Err.unsupported (specFirstUnsupported i)
  | none, _ => by simp [AppendIntf, specFirstUnsupported]
  | some (.mk m e c), h => by
    simp only [capFree, Bool.and_eq_true, Option.isNone_iff_eq_none] at h
    obtain ⟨⟨hm, he⟩, hc⟩ := h
    subst hm
    subst he
    simp only [AppendIntf, specFirstUnsupported]
    exact appendConc_err_eq b c hc
termination_by i _ => (sizeOf i, 1)

theorem appendConc_err_eq (b : Buf) : (c : Conc) → capFreeConc c = true →
    (appendConc b c).2 = Option.map Err.unsupported (specFirstUnsupportedConc c)
  | .mapStrIntf l, hc => by
    simp only [appendConc, specFirstUnsupportedConc, AppendMapStrIntf]
    exact pairs_err_eq _ l (by simpa [capFreeConc] using hc)
  | .sliceIntf l, hc => by
    simp only [appendConc, specFirstUnsupportedConc]
    exact elems_err_eq _ l (by simpa [capFreeConc] using hc)
  | .seqOther ty l, hc => by
    simp only [appendConc, specFirstUnsupportedConc, reflect_loop_eq]
    exact elems_err_eq _ l (by simpa [capFreeConc] using hc)
  | .boolV x, _ => by simp [appendConc, specFirstUnsupportedConc]
  | .f32 u, _ => by simp [appendConc, specFirstUnsupportedConc]
  | .f64 u, _ => by simp [appendConc, specFirstUnsupportedConc]
  | .c64 r i, _ => by simp [appendConc, specFirstUnsupportedConc]
  | .c128 r i, _ => by simp [appendConc, specFirstUnsupportedConc]
  | .strV s, _ => by simp [appendConc, specFirstUnsupportedConc]
  | .bytesV s, _ => by simp [appendConc, specFirstUnsupportedConc]
  | .i8 x, _ => by simp [appendConc, specFirstUnsupportedConc]
  | .i16 x, _ => by simp [appendConc, specFirstUnsupportedConc]
  | .i32 x, _ => by simp [appendConc, specFirstUnsupportedConc]
  | .i64 x, _ => by simp [appendConc, specFirstUnsupportedConc]
  | .intV x, _ => by simp [appendConc, specFirstUnsupportedConc]
  | .uintV x, _ => by simp [appendConc, specFirstUnsupportedConc]
  | .u8 x, _ => by simp [appendConc, specFirstUnsupportedConc]
  | .u16 x, _ => by simp [appendConc, specFirstUnsupportedConc]
  | .u32 x, _ => by simp [appendConc, specFirstUnsupportedConc]
  | .u64 x, _ => by simp [appendConc, specFirstUnsupportedConc]
  | .timeV t, _ => by simp [appendConc, specFirstUnsupportedConc]
  | .mapStrStr l, _ => by simp [appendConc, specFirstUnsupportedConc]
  | .ptrV p, _ => by simp [appendConc, specFirstUnsupportedConc]
  | .otherV t, _ => by simp [appendConc, specFirstUnsupportedConc]
termination_by c _ => (sizeOf c, 0)

theorem pairs_err_eq (b : Buf) : (l : List (List Nat × Option Iface)) →
    capFreePairs l = true →
    (appendMapStrIntfPairs b l).2
      = Option.map Err.unsupported (specFirstUnsupportedPairs l)
  | [], _ => by simp [appendMapStrIntfPairs, specFirstUnsupportedPairs]
  | (k, v) :: rest, h => by
    simp only [capFreePairs, Bool.and_eq_true] at h
    obtain ⟨hv, hrest⟩ := h
    have hv2 := appendIntf_err_eq (AppendString b k) v hv
    have hrec := pairs_err_eq (AppendIntf (AppendString b k) v).1 rest hrest
    simp only [appendMapStrIntfPairs, specFirstUnsupportedPairs]
    cases hs : specFirstUnsupported v with
    | some t =>
      rw [hs] at hv2
      simp [hv2, hs]
    | none =>
      rw [hs] at hv2
      simp only [Option.map] at hv2
      simp [hv2, hs, hrec]
termination_by l _ => (sizeOf l, 0)

theorem elems_err_eq (b : Buf) : (l : List (Option Iface)) →
    capFreeElems l = true →
    (appendIntfElems b l).2
      = Option.map Err.unsupported (specFirstUnsupportedElems l)
  | [], _ => by simp [appendIntfElems, specFirstUnsupportedElems]
  | v :: rest, h => by
    simp only [capFreeElems, Bool.and_eq_true] at h
    obtain ⟨hv, hrest⟩ := h
    have hv2 := appendIntf_err_eq b v hv
    have hrec := elems_err_eq (AppendIntf b v).1 rest hrest
    simp only [appendIntfElems, specFirstUnsupportedElems]
    cases hs : specFirstUnsupported v with
    | some t =>
      rw [hs] at hv2
      simp [hv2, hs]
    | none =>
      rw [hs] at hv2
      simp only [Option.map] at hv2
      simp [hv2, hs, hrec]
termination_by l _ => (sizeOf l, 0)
end

/-- C6: for values carrying no Marshaler/Extension capability (whose errors
would be delegated, not originated), `AppendIntf` returns an
`UnsupportedType` error exactly when some reachable value matches none of the
recognized shapes, and the error names the concrete type of the first such
value in dispatch/iteration order — an element's type, not its container's;
`AppendMapStrIntf`, the only other error-returning operation, only propagates
the dispatcher's error in the same way. -/
theorem appendIntf_unsupported_first_unrecognized (b : Buf) (i : Option Iface)
    (m : List (List Nat × Option Iface)) (h1 : capFree i = true)
    (h2 : capFreePairs m = true) :
    (AppendIntf b i).2 = Option.map Err.unsupported (specFirstUnsupported i) ∧
    (AppendMapStrIntf b m).2
      = Option.map Err.unsupported (specFirstUnsupportedPairs m) := by
  refine ⟨appendIntf_err_eq b i h1, ?_⟩
  simp only [AppendMapStrIntf]
  exact pairs_err_eq _ m h2

/-- Witness for C6: a slice whose second element has an unrecognized type, and
a one-pair map with an unrecognized value. -/
theorem appendIntf_unsupported_first_unrecognized_witness :
    capFree (some (.mk none none (.sliceIntf
      [some (.mk none none (.intV 1)),
       some (.mk none none (.otherV "chan int"))]))) = true ∧
    capFreePairs [([97], some (.mk none none (.otherV "func()")))] = true ∧
    (AppendIntf emptyBuf (some (.mk none none (.sliceIntf
        [some (.mk none none (.intV 1)),
         some (.mk none none (.otherV "chan int"))])))).2
      = Option.map Err.unsupported (specFirstUnsupported (some (.mk none none (.sliceIntf
          [some (.mk none none (.intV 1)),
           some (.mk none none (.otherV "chan int"))])))) ∧
    (AppendMapStrIntf emptyBuf [([97], some (.mk none none (.otherV "func()")))]).2
      = Option.map Err.unsupported
          (specFirstUnsupportedPairs [([97], some (.mk none none (.otherV "func()")))]) := by
  have hc1 : capFree (some (.mk none none (.sliceIntf
      [some (.mk none none (.intV 1)),
       some (.mk none none (.otherV "chan int"))]))) = true := by
    simp [capFree, capFreeConc, capFreeElems]
  have hc2 : capFreePairs [([97], some (.mk none none (.otherV "func()")))] = true := by
    simp [capFreePairs, capFree, capFreeConc]
  have h := appendIntf_unsupported_first_unrecognized emptyBuf
    (some (.mk none none (.sliceIntf
      [some (.mk none none (.intV 1)),
       some (.mk none none (.otherV "chan int"))])))
    [([97], some (.mk none none (.otherV "func()")))] hc1 hc2
  exact ⟨hc1, hc2, h.1, h.2⟩
